import Mathlib

namespace Codectx

/-- A Go string, modelled as its list of runes. -/
abbrev Str := List Char

theorem length_tail_le (l : Str) : l.tail.length ≤ l.length := by
  cases l <;> simp

/-- Go `filepath.Separator` on Unix. -/
def separator : Char := '/'

def getEsc (chunk : Str) : Except Unit (Char × Str) :=
  match chunk with
  | [] => .error ()
  | c :: rest =>
    if c = '-' ∨ c = ']' then .error ()
    else if c = '\\' then
      match rest with
      | [] => .error ()
      | d :: rest2 => if rest2 = [] then .error () else .ok (d, rest2)
    else if rest = [] then .error () else .ok (c, rest)

theorem getEsc_length_lt {chunk : Str} {c : Char} {rest : Str}
    (h : getEsc chunk = .ok (c, rest)) : rest.length < chunk.length := by
  match chunk with
  | [] => simp [getEsc] at h
  | a :: tl =>
    simp only [getEsc] at h
    split at h
    · exact absurd h (by simp)
    · split at h
      · match tl with
        | [] => simp at h
        | d :: tl2 =>
          simp only [] at h
          split at h
          · exact absurd h (by simp)
          · simp only [Except.ok.injEq, Prod.mk.injEq] at h
            simp [← h.2]
            omega
      · split at h
        · exact absurd h (by simp)
        · simp only [Except.ok.injEq, Prod.mk.injEq] at h
          simp [← h.2]

def matchRanges (r : Char) (m first : Bool) (chunk : Str) :
    Except Unit (Str × Bool) :=
  if first = false ∧ chunk.headD ' ' = ']' ∧ chunk ≠ [] then
    .ok (chunk.tail, m)
  else
    match hlo : getEsc chunk with
    | .error _ => .error ()
    | .ok (lo, ch1) =>
      if ch1.headD ' ' = '-' ∧ ch1 ≠ [] then
        match hhi : getEsc ch1.tail with
        | .error _ => .error ()
        | .ok (hi, ch3) =>
          matchRanges r (m || (decide (lo ≤ r) && decide (r ≤ hi))) false ch3
      else
        matchRanges r (m || (decide (lo ≤ r) && decide (r ≤ lo))) false ch1
termination_by chunk.length
decreasing_by
  · have h1 := getEsc_length_lt hlo
    have h2 := getEsc_length_lt hhi
    have h3 := length_tail_le ch1
    omega
  · exact getEsc_length_lt hlo

theorem matchRanges_unfold (r : Char) (m first : Bool) (chunk : Str) :
    matchRanges r m first chunk =
      if first = false ∧ chunk.headD ' ' = ']' ∧ chunk ≠ [] then
        .ok (chunk.tail, m)
      else
        match getEsc chunk with
        | .error _ => .error ()
        | .ok (lo, ch1) =>
          if ch1.headD ' ' = '-' ∧ ch1 ≠ [] then
            match getEsc ch1.tail with
            | .error _ => .error ()
            | .ok (hi, ch3) =>
              matchRanges r (m || (decide (lo ≤ r) && decide (r ≤ hi))) false ch3
          else
            matchRanges r (m || (decide (lo ≤ r) && decide (r ≤ lo))) false ch1 := by
  rw [matchRanges.eq_def]
  split
  · rfl
  · split <;> rename_i heq
    · rw [heq]
    · rw [heq]
      simp only []
      split
      · split <;> rename_i heq2
        · rw [heq2]
        · rw [heq2]
      · rfl

theorem matchRanges_length_le {r : Char} {m first : Bool} {chunk rest : Str}
    {b : Bool} (h : matchRanges r m first chunk = .ok (rest, b)) :
    rest.length ≤ chunk.length := by
  rw [matchRanges] at h
  split at h
  · simp only [Except.ok.injEq, Prod.mk.injEq] at h
    rw [← h.1]
    exact length_tail_le chunk
  · split at h
    · exact absurd h (by simp)
    · rename_i lo ch1 hlo
      split at h
      · split at h
        · exact absurd h (by simp)
        · rename_i hi ch3 hhi
          have l1 := getEsc_length_lt hlo
          have l2 := getEsc_length_lt hhi
          have l3 := length_tail_le ch1
          have := matchRanges_length_le h
          omega
      · have l1 := getEsc_length_lt hlo
        have := matchRanges_length_le h
        omega
termination_by chunk.length
decreasing_by
  all_goals omega

def matchChunkAux (failed : Bool) (chunk s : Str) : Except Unit (Str × Bool) :=
  match chunk with
  | [] => if failed then .ok ([], false) else .ok (s, true)
  | c :: ch =>
    let failed1 := failed || s.isEmpty
    if c = '[' then
      let r := if failed1 then Char.ofNat 0 else s.headD (Char.ofNat 0)
      let s2 := if failed1 then s else s.tail
      let negated := (ch.headD ' ' == '^') && !ch.isEmpty
      match hmr : matchRanges r false true (if negated then ch.tail else ch) with
      | .error _ => .error ()
      | .ok (ch2, m) =>
        matchChunkAux (failed1 || (m == negated)) ch2 s2
    else if c = '?' then
      if failed1 then matchChunkAux failed1 ch s
      else matchChunkAux (s.headD (Char.ofNat 0) == separator) ch s.tail
    else if c = '\\' then
      match ch with
      | [] => .error ()
      | d :: ch2 =>
        if failed1 then matchChunkAux failed1 ch2 s
        else matchChunkAux (d != s.headD (Char.ofNat 0)) ch2 s.tail
    else
      if failed1 then matchChunkAux failed1 ch s
      else matchChunkAux (c != s.headD (Char.ofNat 0)) ch s.tail
termination_by chunk.length
decreasing_by
  all_goals simp only [List.length_cons]
  all_goals
    first
      | omega
      | (rename_i d2 r2 hcons hcond
         subst hcons
         simp only [List.length_cons]
         omega)
      | (have h1 := matchRanges_length_le (by assumption)
         split at h1 <;> (try simp only [List.length_tail] at h1) <;> omega)

theorem matchChunkAux_nil (failed : Bool) (s : Str) :
    matchChunkAux failed [] s =
      if failed then .ok ([], false) else .ok (s, true) := by
  rw [matchChunkAux.eq_def]

theorem matchChunkAux_cons (failed : Bool) (c : Char) (ch s : Str) :
    matchChunkAux failed (c :: ch) s =
      (let failed1 := failed || s.isEmpty
       if c = '[' then
        let r := if failed1 then Char.ofNat 0 else s.headD (Char.ofNat 0)
        let s2 := if failed1 then s else s.tail
        let negated := (ch.headD ' ' == '^') && !ch.isEmpty
        match matchRanges r false true (if negated then ch.tail else ch) with
        | .error _ => .error ()
        | .ok (ch2, m) =>
          matchChunkAux (failed1 || (m == negated)) ch2 s2
      else if c = '?' then
        if failed1 then matchChunkAux failed1 ch s
        else matchChunkAux (s.headD (Char.ofNat 0) == separator) ch s.tail
      else if c = '\\' then
        match ch with
        | [] => .error ()
        | d :: ch2 =>
          if failed1 then matchChunkAux failed1 ch2 s
          else matchChunkAux (d != s.headD (Char.ofNat 0)) ch2 s.tail
      else
        if failed1 then matchChunkAux failed1 ch s
        else matchChunkAux (c != s.headD (Char.ofNat 0)) ch s.tail) := by
  rw [matchChunkAux.eq_def]
  simp only []
  split
  · split <;> rename_i heq
    · rw [heq]
    · rw [heq]
  · rfl

def matchChunk (chunk s : Str) : Except Unit (Str × Bool) :=
  matchChunkAux false chunk s

def scanBody (inrange : Bool) : Str → Str × Str
  | [] => ([], [])
  | c :: rest =>
    if c = '\\' then
      match rest with
      | [] => ([c], [])
      | d :: rest2 =>
        let p := scanBody inrange rest2
        (c :: d :: p.1, p.2)
    else if c = '[' then
      let p := scanBody true rest
      (c :: p.1, p.2)
    else if c = ']' then
      let p := scanBody false rest
      (c :: p.1, p.2)
    else if c = '*' then
      if inrange then
        let p := scanBody inrange rest
        (c :: p.1, p.2)
      else ([], c :: rest)
    else
      let p := scanBody inrange rest
      (c :: p.1, p.2)

theorem scanBody_append (inrange : Bool) (l : Str) :
    (scanBody inrange l).1 ++ (scanBody inrange l).2 = l := by
  induction inrange, l using scanBody.induct <;>
    (rw [scanBody.eq_def]; simp_all)

theorem scanBody_fst_ne_nil (inrange : Bool) (l : Str) :
    ∀ c rest, l = c :: rest → c ≠ '*' → (scanBody inrange l).1 ≠ [] := by
  induction inrange, l using scanBody.induct <;> intro c2 r2 hl hc <;>
    (rw [scanBody.eq_def]; simp_all) <;>
    exact hc hl.1.symm

theorem scanBody_length (inrange : Bool) (l : Str) :
    (scanBody inrange l).1.length + (scanBody inrange l).2.length = l.length := by
  have h := congrArg List.length (scanBody_append inrange l)
  simpa using h

def scanChunk (pattern : Str) : Bool × Str × Str :=
  let star := decide (pattern.headD ' ' = '*' ∧ pattern ≠ [])
  let p := pattern.dropWhile (fun c => c = '*')
  let q := scanBody false p
  (star, q.1, q.2)

theorem dropWhile_head_not {p : Char → Bool} (l : Str) {c : Char} {r : Str}
    (h : l.dropWhile p = c :: r) : p c = false := by
  induction l with
  | nil => simp at h
  | cons a tl ih =>
    rw [List.dropWhile_cons] at h
    split at h
    · exact ih h
    · rename_i hpa
      obtain ⟨rfl, -⟩ := List.cons.injEq .. ▸ h
      simpa using hpa

theorem scanChunk_rest_lt {pattern : Str} (hne : pattern ≠ []) :
    (scanChunk pattern).2.2.length < pattern.length := by
  have hq := scanBody_length false (pattern.dropWhile (fun x => x = '*'))
  have hlen : (pattern.dropWhile (fun x => x = '*')).length ≤ pattern.length :=
    (List.dropWhile_sublist _).length_le
  have hp : 0 < pattern.length := List.length_pos.mpr hne
  show (scanBody false (pattern.dropWhile (fun x => x = '*'))).2.length <
    pattern.length
  match hd : pattern.dropWhile (fun x => x = '*') with
  | [] => simpa [scanBody] using hp
  | c :: r =>
    have hc : c ≠ '*' := by
      have := dropWhile_head_not pattern hd
      simpa using this
    have hch := scanBody_fst_ne_nil false (c :: r) c r rfl hc
    have h1 := List.length_pos.mpr hch
    have hlen2 : (c :: r).length ≤ pattern.length := hd ▸ hlen
    rw [hd] at hq
    omega

mutual

def doMatch (pattern name : Str) : Except Unit Bool :=
  match pattern with
  | [] => .ok name.isEmpty
  | p0 :: prest =>
    let sc := scanChunk (p0 :: prest)
    let star := sc.1
    let chunk := sc.2.1
    let rest := sc.2.2
    if star && chunk.isEmpty then
      .ok (!(name.contains separator))
    else
      match matchChunk chunk name with
      | .error _ => .error ()
      | .ok (t, ok1) =>
        if ok1 && (t.isEmpty || !rest.isEmpty) then doMatch rest t
        else if star then tryStar rest chunk name
        else .ok false
termination_by (pattern.length, 0, name.length)
decreasing_by
  all_goals
    exact Prod.Lex.left _ _ (scanChunk_rest_lt (by simp))

def tryStar (rest chunk name : Str) : Except Unit Bool :=
  match name with
  | [] => .ok false
  | c :: cs =>
    if c = separator then .ok false
    else
      match matchChunk chunk cs with
      | .error _ => .error ()
      | .ok (t, ok1) =>
        if ok1 then
          if rest.isEmpty && !t.isEmpty then tryStar rest chunk cs
          else doMatch rest t
        else tryStar rest chunk cs
termination_by (rest.length, 1, name.length)
decreasing_by
  all_goals
    first
      | exact Prod.Lex.right _ (Prod.Lex.right _ (by simp only [List.length_cons]; omega))
      | exact Prod.Lex.right _ (Prod.Lex.left _ _ (by omega))

end

/-! ## Path helpers: `filepath.ToSlash`, `strings.Split`, `strings.Join`,
`strings.TrimSpace`, `strings.HasPrefix`, `strings.HasSuffix` -/

/-- Go `filepath.ToSlash`. -/
def toSlash (path : Str) : Str :=
  path.map (fun c => if c = separator then '/' else c)

/-- Go `strings.Split(s, "/")` (single-character separator). -/
def splitSlash : Str → List Str
  | [] => [[]]
  | c :: rest =>
    if c = '/' then [] :: splitSlash rest
    else
      match splitSlash rest with
      | [] => [[c]]
      | p :: ps => (c :: p) :: ps

/-- Go `strings.Join(parts, "/")`. -/
def joinSlash : List Str → Str
  | [] => []
  | [p] => p
  | p :: q :: qs => p ++ '/' :: joinSlash (q :: qs)

theorem splitSlash_ne_nil (l : Str) : splitSlash l ≠ [] := by
  match l with
  | [] => simp [splitSlash]
  | c :: rest =>
    simp only [splitSlash]
    split
    · simp
    · split <;> simp

theorem joinSlash_splitSlash (l : Str) : joinSlash (splitSlash l) = l := by
  induction l with
  | nil => rfl
  | cons c rest ih =>
    simp only [splitSlash]
    split
    · rename_i hc
      match hsp : splitSlash rest with
      | [] => exact absurd hsp (splitSlash_ne_nil rest)
      | q :: qs =>
        rw [hsp] at ih
        simp only [joinSlash, List.nil_append]
        rw [ih, hc]
    · rename_i hc
      match hsp : splitSlash rest with
      | [] => exact absurd hsp (splitSlash_ne_nil rest)
      | p :: ps =>
        rw [hsp] at ih
        cases ps with
        | nil =>
          simp only [joinSlash]
          simp only [joinSlash] at ih
          rw [ih]
        | cons p2 ps2 =>
          simp only [joinSlash]
          simp only [joinSlash] at ih
          rw [List.cons_append, ih]

/-- Go `unicode.IsSpace` (the rune set `strings.TrimSpace` trims). -/
def goIsSpace (c : Char) : Bool :=
  c = ' ' || c = '\t' || c = '\n' || c.val = 11 || c.val = 12 || c = '\r' ||
  c.val = 0x85 || c.val = 0xA0 || c.val = 0x1680 ||
  (0x2000 ≤ c.val && c.val ≤ 0x200A) || c.val = 0x2028 || c.val = 0x2029 ||
  c.val = 0x202F || c.val = 0x205F || c.val = 0x3000

/-- Go `strings.TrimSpace`. -/
def trimSpace (s : Str) : Str :=
  ((s.dropWhile goIsSpace).reverse.dropWhile goIsSpace).reverse

/-- Go `strings.HasPrefix s pre`. -/
def startsWithStr : Str → Str → Bool
  | _, [] => true
  | [], _ :: _ => false
  | c :: cs, d :: ds => c == d && startsWithStr cs ds

/-- Go `strings.HasSuffix s suf`. -/
def endsWithStr (s suf : Str) : Bool :=
  startsWithStr s.reverse suf.reverse

/-! ## The gitignore engine of `internal/git/ignore.go` -/

/-- Structure `GitIgnoreRule` of `ignore.go`: a single parsed rule. -/
structure GitIgnoreRule where
  Pattern : Str
  IsNegation : Bool
  IsDirectory : Bool
deriving DecidableEq

/-- Structure `GitIgnoreParser` of `ignore.go`. -/
structure GitIgnoreParser where
  patterns : List Str
  rules : List GitIgnoreRule
  rootDir : Str
deriving DecidableEq

/-- Constructor `NewGitIgnoreParser`. -/
def newGitIgnoreParser (rootDir : Str) : GitIgnoreParser :=
  { patterns := [], rules := [], rootDir := rootDir }

/-- The rule-construction part of the `ParseGitIgnore` loop body, applied to
a trimmed, non-empty, non-comment line: negation stripping first, then
directory-suffix stripping. -/
def parseRule (line : Str) : GitIgnoreRule :=
  let rule : GitIgnoreRule :=
    { Pattern := line, IsNegation := false, IsDirectory := false }
  let rule :=
    if startsWithStr line ['!'] then
      { rule with IsNegation := true, Pattern := line.drop 1 }
    else rule
  let rule :=
    if endsWithStr rule.Pattern ['/'] then
      { rule with IsDirectory := true, Pattern := rule.Pattern.dropLast }
    else rule
  rule

/-- One iteration of the `ParseGitIgnore` scanner loop, as a line
classifier: `none` for skipped lines (blank or comment), otherwise the
rule appended for that line. -/
def parseLine (raw : Str) : Option GitIgnoreRule :=
  let line := trimSpace raw
  if line.isEmpty || startsWithStr line ['#'] then none
  else some (parseRule line)

/-- The `ParseGitIgnore` scanner loop over the file lines, accumulating
into the receiver: skipped lines leave the receiver alone, kept lines
append the trimmed line to `patterns` and the parsed rule to `rules`. -/
def parseLines (g : GitIgnoreParser) : List Str → GitIgnoreParser
  | [] => g
  | raw :: rest =>
    match parseLine raw with
    | none => parseLines g rest
    | some rule =>
      parseLines
        { g with
          patterns := g.patterns ++ [trimSpace raw]
          rules := g.rules ++ [rule] } rest

/-- The error `ParseGitIgnore` returns when `os.Open` fails (for example
when the source file does not exist). -/
inductive OpenError where
  | openFailed
deriving DecidableEq

/-- Method `ParseGitIgnore`: a source is `none` when the file cannot be opened
(`os.Open` fails; the method returns the error before touching the
receiver) and `some lines` when it is readable, in which case the scanner
loop appends to the accumulated patterns and rules.  The returned pair is
the receiver state after the call together with the returned error. -/
def parseGitIgnore (g : GitIgnoreParser) (source : Option (List Str)) :
    GitIgnoreParser × Option OpenError :=
  match source with
  | none => (g, some .openFailed)
  | some lines => (parseLines g lines, none)

/-- The ambient filesystem as `ShouldIgnore` sees it: `rel root path`
models `filepath.Rel` (`none` when it returns an error), `statIsDir path`
models `os.Stat` followed by `IsDir` (`none` when `os.Stat` errors). -/
structure OsEnv where
  rel : Str → Str → Option Str
  statIsDir : Str → Option Bool

/-- Go `matched, _ := filepath.Match(pattern, name)`: the Boolean result
with a match error discarded (an errored match reports `false`). -/
def matchIgn (pattern s : Str) : Bool :=
  match doMatch pattern s with
  | .ok b => b
  | .error _ => false

/-- The inner `for j := 0; j < len(parts); j++` retry loop of
`ShouldIgnore`: try `strings.Join(parts[j:], "/")` for each `j` until a
match is found. -/
def anySuffix (pattern : Str) : List Str → Bool
  | [] => false
  | p :: ps => matchIgn pattern (joinSlash (p :: ps)) || anySuffix pattern ps

/-- The per-rule match test of `ShouldIgnore`: try the full relative path
first and, when that fails, re-try the pattern against every suffix of
the path obtained by dropping leading `/`-separated segments. -/
def ruleMatch (pattern relPath : Str) : Bool :=
  let matched := matchIgn pattern relPath
  if matched then matched
  else anySuffix pattern (splitSlash relPath)

/-- The rule loop of `ShouldIgnore`, already given the reversed rule list
(the Go loop walks `g.rules` from the last element to the first). -/
def scanRules (env : OsEnv) (filePath relPath : Str) :
    List GitIgnoreRule → Bool
  | [] => false
  | rule :: rest =>
    if ruleMatch rule.Pattern relPath then
      if rule.IsNegation then false
      else if rule.IsDirectory then
        match env.statIsDir filePath with
        | some true => true
        | _ => scanRules env filePath relPath rest
      else true
    else scanRules env filePath relPath rest

/-- Method `ShouldIgnore`. -/
def shouldIgnore (env : OsEnv) (g : GitIgnoreParser) (filePath : Str) : Bool :=
  match env.rel g.rootDir filePath with
  | none => false
  | some relPath0 => scanRules env filePath (toSlash relPath0) g.rules.reverse

/-- A test filesystem: every path is relative to the root already, and
`dirs` lists the paths that are directories. -/
def testEnv (dirs : List Str) : OsEnv :=
  { rel := fun _ p => some p
    statIsDir := fun p => some (dirs.contains p) }

/-! ## Claim theorems -/

/-- C1: for the rule list parsed from the two lines `*.log` then
`!important.log` (in that order), `ShouldIgnore` on `important.log`
returns `false` (the later negation rule is scanned first and wins) and
`ShouldIgnore` on `other.log` returns `true`. -/
theorem c1_negation_overrides_broad_match :
    shouldIgnore (testEnv []) ((parseGitIgnore (newGitIgnoreParser ".".data)
        (some ["*.log".data, "!important.log".data])).1) "important.log".data
      = false ∧
    shouldIgnore (testEnv []) ((parseGitIgnore (newGitIgnoreParser ".".data)
        (some ["*.log".data, "!important.log".data])).1) "other.log".data
      = true := by
  constructor <;>
    simp [shouldIgnore, scanRules, ruleMatch, anySuffix, matchIgn,
      doMatch.eq_def, tryStar.eq_def, dite_eq_ite, matchChunk,
      matchChunkAux_nil, matchChunkAux_cons, matchRanges_unfold, getEsc,
      scanChunk, scanBody, separator, parseGitIgnore, parseLines, parseLine,
      parseRule, trimSpace, goIsSpace, startsWithStr, endsWithStr, toSlash,
      splitSlash, joinSlash, testEnv, newGitIgnoreParser]

/-- The suffixes of a relative path obtained by dropping leading
`/`-separated segments one at a time (the full path is the `j = 0`
entry). -/
def pathSuffixes (relPath : Str) : List Str :=
  (List.range (splitSlash relPath).length).map
    (fun j => joinSlash ((splitSlash relPath).drop j))

theorem anySuffix_eq_range (pattern : Str) (parts : List Str) :
    anySuffix pattern parts =
      ((List.range parts.length).map (fun j => joinSlash (parts.drop j))).any
        (matchIgn pattern) := by
  induction parts with
  | nil => rfl
  | cons p ps ih =>
    rw [anySuffix, List.length_cons, List.range_succ_eq_map]
    simp only [List.map_cons, List.any_cons, List.drop_zero, List.map_map,
      Function.comp, List.drop_succ_cons]
    rw [ih]
    simp only [Function.comp_def, List.drop_succ_cons]

/-- C2: for a rule pattern containing no slash, the per-rule match test of
`ShouldIgnore` reports a match exactly when the pattern matches some
suffix of the path obtained by dropping leading segments; in particular
the single rule `test_*` makes `ShouldIgnore` ignore the nested
non-directory path `src/sub/test_file.go`. -/
theorem c2_pattern_matches_at_any_depth :
    (∀ pattern relPath : Str, pattern.contains '/' = false →
      ruleMatch pattern relPath = (pathSuffixes relPath).any (matchIgn pattern)) ∧
    shouldIgnore (testEnv []) ((parseGitIgnore (newGitIgnoreParser ".".data)
        (some ["test_*".data])).1) "src/sub/test_file.go".data = true := by
  constructor
  · intro pattern relPath hns
    rw [ruleMatch]
    split
    · rename_i hm
      rw [hm]
      symm
      rw [pathSuffixes, List.any_eq_true]
      refine ⟨relPath, ?_, hm⟩
      simp only [List.mem_map, List.mem_range]
      exact ⟨0, List.length_pos.mpr (splitSlash_ne_nil relPath), by
        simp [joinSlash_splitSlash]⟩
    · rw [pathSuffixes]
      exact anySuffix_eq_range pattern (splitSlash relPath)
  · simp [shouldIgnore, scanRules, ruleMatch, anySuffix, matchIgn,
      doMatch.eq_def, tryStar.eq_def, dite_eq_ite, matchChunk,
      matchChunkAux_nil, matchChunkAux_cons, matchRanges_unfold, getEsc,
      scanChunk, scanBody, separator, parseGitIgnore, parseLines, parseLine,
      parseRule, trimSpace, goIsSpace, startsWithStr, endsWithStr, toSlash,
      splitSlash, joinSlash, testEnv, newGitIgnoreParser]

theorem c2_witness :
    ruleMatch "test_*".data "src/sub/test_file.go".data =
      (pathSuffixes "src/sub/test_file.go".data).any (matchIgn "test_*".data) :=
  c2_pattern_matches_at_any_depth.1 "test_*".data "src/sub/test_file.go".data
    (by decide)

/-- C4: a path that cannot be made relative to the configured root
(`filepath.Rel` errors) is never ignored, whatever the rule set. -/
theorem c4_outside_root_fails_safe :
    ∀ (env : OsEnv) (g : GitIgnoreParser) (filePath : Str),
      env.rel g.rootDir filePath = none →
      shouldIgnore env g filePath = false := by
  intro env g filePath h
  rw [shouldIgnore, h]

/-- The filesystem in which no path resolves relative to the root and
every stat fails. -/
def outsideEnv : OsEnv :=
  { rel := fun _ _ => none
    statIsDir := fun _ => none }

theorem c4_witness :
    shouldIgnore outsideEnv ((parseGitIgnore (newGitIgnoreParser "/root".data)
      (some ["*.log".data])).1) "/elsewhere/x.log".data = false :=
  c4_outside_root_fails_safe outsideEnv _ "/elsewhere/x.log".data rfl

/-- C6: parsing a source that does not exist returns an error to the
caller and leaves the parser's accumulated state exactly as it was. -/
theorem c6_missing_source_is_error_no_mutation :
    ∀ g : GitIgnoreParser,
      (parseGitIgnore g none).2 = some OpenError.openFailed ∧
      (parseGitIgnore g none).1 = g := by
  intro g
  exact ⟨rfl, rfl⟩

/-- C3: a matching directory-only (non-negation) rule counts only when the
candidate is actually a directory; otherwise the rule is skipped and
scanning continues with the earlier rules.  Concretely, the single rule
`build/` does not ignore a plain file named `build` but does ignore a
directory named `build`. -/
theorem c3_directory_only_needs_directory :
    (∀ (env : OsEnv) (filePath relPath : Str) (rule : GitIgnoreRule)
        (rest : List GitIgnoreRule),
      rule.IsNegation = false → rule.IsDirectory = true →
      env.statIsDir filePath ≠ some true →
      scanRules env filePath relPath (rule :: rest) =
        scanRules env filePath relPath rest) ∧
    shouldIgnore (testEnv []) ((parseGitIgnore (newGitIgnoreParser ".".data)
        (some ["build/".data])).1) "build".data = false ∧
    shouldIgnore (testEnv ["build".data]) ((parseGitIgnore
        (newGitIgnoreParser ".".data)
        (some ["build/".data])).1) "build".data = true := by
  refine ⟨?_, ?_, ?_⟩
  · intro env filePath relPath rule rest hneg hdir hstat
    rw [scanRules]
    split
    · simp only [hneg, hdir, Bool.false_eq_true, if_false, if_true, reduceIte]
    · rfl
  · simp [shouldIgnore, scanRules, ruleMatch, anySuffix, matchIgn,
      doMatch.eq_def, tryStar.eq_def, dite_eq_ite, matchChunk,
      matchChunkAux_nil, matchChunkAux_cons, matchRanges_unfold, getEsc,
      scanChunk, scanBody, separator, parseGitIgnore, parseLines, parseLine,
      parseRule, trimSpace, goIsSpace, startsWithStr, endsWithStr, toSlash,
      splitSlash, joinSlash, testEnv, newGitIgnoreParser]
  · simp [shouldIgnore, scanRules, ruleMatch, anySuffix, matchIgn,
      doMatch.eq_def, tryStar.eq_def, dite_eq_ite, matchChunk,
      matchChunkAux_nil, matchChunkAux_cons, matchRanges_unfold, getEsc,
      scanChunk, scanBody, separator, parseGitIgnore, parseLines, parseLine,
      parseRule, trimSpace, goIsSpace, startsWithStr, endsWithStr, toSlash,
      splitSlash, joinSlash, testEnv, newGitIgnoreParser]

theorem c3_witness :
    scanRules (testEnv []) "build".data "build".data
        (parseRule "build/".data :: []) =
      scanRules (testEnv []) "build".data "build".data [] :=
  c3_directory_only_needs_directory.1 (testEnv []) "build".data "build".data
    (parseRule "build/".data) [] (by decide) (by decide) (by decide)

/-- The line classifier as the specification words it: skip blank and
comment lines; a leading `!` marks negation and is stripped; a trailing
`/` (checked after negation stripping) marks a directory-only rule and is
stripped; the remaining text is the pattern, verbatim. -/
def specLineRule (raw : Str) : Option GitIgnoreRule :=
  let t := trimSpace raw
  if t.isEmpty || startsWithStr t ['#'] then none
  else
    let isNeg := startsWithStr t ['!']
    let afterNeg := if isNeg then t.drop 1 else t
    let isDir := endsWithStr afterNeg ['/']
    let pat := if isDir then afterNeg.dropLast else afterNeg
    some { Pattern := pat, IsNegation := isNeg, IsDirectory := isDir }

/-- C5: `ParseGitIgnore` classifies every line exactly as the
specification describes. -/
theorem c5_line_classification :
    ∀ raw : Str, parseLine raw = specLineRule raw := by
  intro raw
  rw [parseLine, specLineRule]
  split
  · rfl
  · simp only [parseRule]
    split <;> split <;> simp_all

/-- C7: a rule whose pattern is the malformed glob `[ab` (unterminated
bracket expression) errors inside `filepath.Match` for every candidate,
is therefore treated as a non-match, and scanning simply continues with
the remaining rules; `ShouldIgnore` itself never errors and other rules
still decide unrelated paths. -/
theorem c7_malformed_glob_fails_silently :
    (∀ s : Str, doMatch "[ab".data s = .error ()) ∧
    (∀ s : Str, matchIgn "[ab".data s = false) ∧
    (∀ (env : OsEnv) (filePath relPath : Str) (rest : List GitIgnoreRule),
      scanRules env filePath relPath (parseRule "[ab".data :: rest) =
        scanRules env filePath relPath rest) ∧
    shouldIgnore (testEnv []) ((parseGitIgnore (newGitIgnoreParser ".".data)
        (some ["*.log".data, "[ab".data])).1) "x.log".data = true := by
  have h1 : ∀ s : Str, doMatch "[ab".data s = .error () := by
    intro s
    match s with
    | [] =>
      simp [doMatch.eq_def, tryStar.eq_def, dite_eq_ite, matchChunk,
        matchChunkAux_nil, matchChunkAux_cons, matchRanges_unfold, getEsc,
        scanChunk, scanBody, separator]
    | c :: s1 =>
      simp [doMatch.eq_def, tryStar.eq_def, dite_eq_ite, matchChunk,
        matchChunkAux_nil, matchChunkAux_cons, matchRanges_unfold, getEsc,
        scanChunk, scanBody, separator]
  have h2 : ∀ s : Str, matchIgn "[ab".data s = false := by
    intro s
    rw [matchIgn, h1 s]
  have h3 : ∀ relPath : Str, ruleMatch "[ab".data relPath = false := by
    intro relPath
    rw [ruleMatch]
    simp only [h2, if_false, Bool.false_eq_true]
    generalize splitSlash relPath = parts
    induction parts with
    | nil => rfl
    | cons p ps ih => rw [anySuffix, h2, ih, Bool.or_self]
  refine ⟨h1, h2, ?_, ?_⟩
  · intro env filePath relPath rest
    rw [scanRules]
    have hp : (parseRule "[ab".data).Pattern = "[ab".data := by decide
    rw [hp, h3]
    simp
  · simp [shouldIgnore, scanRules, ruleMatch, anySuffix, matchIgn,
      doMatch.eq_def, tryStar.eq_def, dite_eq_ite, matchChunk,
      matchChunkAux_nil, matchChunkAux_cons, matchRanges_unfold, getEsc,
      scanChunk, scanBody, separator, parseGitIgnore, parseLines, parseLine,
      parseRule, trimSpace, goIsSpace, startsWithStr, endsWithStr, toSlash,
      splitSlash, joinSlash, testEnv, newGitIgnoreParser]

/-- The patterns appended to the parser by one pass over a source's
lines. -/
def linesPatterns (lines : List Str) : List Str :=
  lines.filterMap (fun raw => (parseLine raw).map (fun _ => trimSpace raw))

/-- The rules appended to the parser by one pass over a source's lines. -/
def linesRules (lines : List Str) : List GitIgnoreRule :=
  lines.filterMap parseLine

theorem parseLines_eq (g : GitIgnoreParser) (lines : List Str) :
    parseLines g lines =
      { patterns := g.patterns ++ linesPatterns lines
        rules := g.rules ++ linesRules lines
        rootDir := g.rootDir } := by
  induction lines generalizing g with
  | nil => simp [parseLines, linesPatterns, linesRules]
  | cons raw rest ih =>
    rw [parseLines]
    match hp : parseLine raw with
    | none =>
      simp [linesPatterns, linesRules, List.filterMap_cons, hp, ih]
    | some rule =>
      simp [linesPatterns, linesRules, List.filterMap_cons, hp, ih]

/-- C8: parsing is additive, not idempotent: parsing the same source twice
from a fresh parser exactly doubles both the rule count and the pattern
count. -/
theorem c8_parsing_is_additive :
    ∀ (root : Str) (lines : List Str),
      ((parseGitIgnore ((parseGitIgnore (newGitIgnoreParser root)
            (some lines)).1) (some lines)).1).rules.length =
        2 * ((parseGitIgnore (newGitIgnoreParser root)
            (some lines)).1).rules.length ∧
      ((parseGitIgnore ((parseGitIgnore (newGitIgnoreParser root)
            (some lines)).1) (some lines)).1).patterns.length =
        2 * ((parseGitIgnore (newGitIgnoreParser root)
            (some lines)).1).patterns.length := by
  intro root lines
  simp only [parseGitIgnore, parseLines_eq, newGitIgnoreParser]
  simp only [List.nil_append, List.length_append]
  omega

theorem scanRules_no_match (env : OsEnv) (filePath relPath : Str)
    (rules : List GitIgnoreRule)
    (h : ∀ rule ∈ rules, ruleMatch rule.Pattern relPath = false) :
    scanRules env filePath relPath rules = false := by
  induction rules with
  | nil => rfl
  | cons rule rest ih =>
    rw [scanRules, h rule (List.mem_cons_self _ _)]
    simp only [Bool.false_eq_true, if_false]
    exact ih (fun r hr => h r (List.mem_cons_of_mem rule hr))

/-- C9: if no rule matches the candidate, `ShouldIgnore` returns `false`;
in particular a freshly constructed parser (empty rule set) never ignores
anything. -/
theorem c9_default_keep :
    (∀ (env : OsEnv) (root filePath : Str),
      shouldIgnore env (newGitIgnoreParser root) filePath = false) ∧
    (∀ (env : OsEnv) (g : GitIgnoreParser) (filePath relPath0 : Str),
      env.rel g.rootDir filePath = some relPath0 →
      (∀ rule ∈ g.rules, ruleMatch rule.Pattern (toSlash relPath0) = false) →
      shouldIgnore env g filePath = false) := by
  constructor
  · intro env root filePath
    rw [shouldIgnore]
    match env.rel (newGitIgnoreParser root).rootDir filePath with
    | none => rfl
    | some rp => rfl
  · intro env g filePath relPath0 hrel hnm
    rw [shouldIgnore, hrel]
    exact scanRules_no_match env filePath (toSlash relPath0) g.rules.reverse
      (fun r hr => hnm r (List.mem_reverse.mp hr))

theorem c9_witness :
    shouldIgnore (testEnv [])
      { patterns := ["*.log".data]
        rules := [{ Pattern := "*.log".data, IsNegation := false,
                    IsDirectory := false }]
        rootDir := ".".data } "foo.txt".data = false := by
  refine c9_default_keep.2 (testEnv []) _ "foo.txt".data "foo.txt".data rfl ?_
  intro rule hr
  simp only [List.mem_singleton] at hr
  subst hr
  simp [ruleMatch, anySuffix, matchIgn, doMatch.eq_def, tryStar.eq_def,
    dite_eq_ite, matchChunk, matchChunkAux_nil, matchChunkAux_cons,
    matchRanges_unfold, getEsc, scanChunk, scanBody, separator, toSlash,
    splitSlash, joinSlash]

/-- C10: for a rule that is both a negation and a directory-only rule
(parsed from a line like `!build/`), the negation branch is checked first:
a match returns `false` (do not ignore) immediately, even when the
candidate is not a directory.  Concretely, with lines `build*` then
`!build/` and a plain file named `build`, `ShouldIgnore` returns `false`
even though `build*` alone would have ignored it. -/
theorem c10_negation_checked_before_directory :
    (∀ (env : OsEnv) (filePath relPath : Str) (rule : GitIgnoreRule)
        (rest : List GitIgnoreRule),
      rule.IsNegation = true →
      ruleMatch rule.Pattern relPath = true →
      scanRules env filePath relPath (rule :: rest) = false) ∧
    (parseRule "!build/".data).IsNegation = true ∧
    (parseRule "!build/".data).IsDirectory = true ∧
    shouldIgnore (testEnv []) ((parseGitIgnore (newGitIgnoreParser ".".data)
        (some ["build*".data, "!build/".data])).1) "build".data = false := by
  refine ⟨?_, by decide, by decide, ?_⟩
  · intro env filePath relPath rule rest hneg hmatch
    rw [scanRules, hmatch, hneg]
    simp
  · simp [shouldIgnore, scanRules, ruleMatch, anySuffix, matchIgn,
      doMatch.eq_def, tryStar.eq_def, dite_eq_ite, matchChunk,
      matchChunkAux_nil, matchChunkAux_cons, matchRanges_unfold, getEsc,
      scanChunk, scanBody, separator, parseGitIgnore, parseLines, parseLine,
      parseRule, trimSpace, goIsSpace, startsWithStr, endsWithStr, toSlash,
      splitSlash, joinSlash, testEnv, newGitIgnoreParser]

theorem c10_witness :
    scanRules (testEnv []) "build".data "build".data
      (parseRule "!build/".data :: [parseRule "build*".data]) = false := by
  refine c10_negation_checked_before_directory.1 (testEnv []) "build".data
    "build".data (parseRule "!build/".data) [parseRule "build*".data]
    (by decide) ?_
  simp [ruleMatch, anySuffix, matchIgn, doMatch.eq_def, tryStar.eq_def,
    dite_eq_ite, matchChunk, matchChunkAux_nil, matchChunkAux_cons,
    matchRanges_unfold, getEsc, scanChunk, scanBody, separator, parseRule,
    trimSpace, goIsSpace, startsWithStr, endsWithStr, splitSlash, joinSlash]

end Codectx
